import Mathlib

set_option maxRecDepth 100000

/-
  Verification of the idempotent delivery pipeline of `job_scraper.py`
  (job-posting scraper → dedup ledger → Telegram batcher → commit discipline).

  Conventions of the embedding:
  * Python `str` is modelled by Lean `String`; both are sequences of unicode
    code points, and `String.length`/`++` agree with Python `len`/`+`.
  * Python string methods used by the source (`strip`, `split('\n')`) are
    re-implemented on the underlying character list (`py_strip_chars`,
    `split_nl`), since their Python semantics (strip all whitespace from both
    ends; split on every newline, keeping empty pieces) is what matters.
  * A Python dict is modelled as an insertion-ordered association list;
    `d[k] = v` updates in place when the key exists and appends otherwise,
    which is exactly Python's dict semantics.
  * I/O outcomes (HTTP responses, Redis availability, Telegram send results,
    the wall clock) are oracle parameters, so every function is total and
    executable.
-/

namespace JobScraper

/-! ## Python string primitives -/

/-- Python `str.strip()` on the character list: drop unicode whitespace from
the front, then from the back (`job_scraper.py` uses `strip` with no
arguments). -/
def py_strip_chars (l : List Char) : List Char :=
  List.rdropWhile Char.isWhitespace (List.dropWhile Char.isWhitespace l)

/-- Python `str.strip()` lifted to `String`. -/
def py_strip (s : String) : String := String.mk (py_strip_chars s.data)

/-- Python `str.split('\n')` on the character list: split on every newline,
keeping empty pieces (`"a\n".split('\n') == ["a", ""]`). -/
def split_nl : List Char → List (List Char)
  | [] => [[]]
  | c :: rest =>
    if c = '\n' then [] :: split_nl rest
    else
      match split_nl rest with
      | [] => [[c]]
      | l :: ls => (c :: l) :: ls

/-- Python `message.split('\n')` lifted to `String` (source line 166). -/
def py_lines (s : String) : List String := (split_nl s.data).map String.mk

/-- The sequence of stripped, non-blank lines of a character list: the
"content" the pipeline cares about when re-splitting an outbound message. -/
def line_tokens (l : List Char) : List (List Char) :=
  ((split_nl l).map py_strip_chars).filter (fun x => x ≠ [])

/-! ## Data model -/

/-- One scraped job posting (the flat record shape produced by
`scrape_jobberman` / `scrape_careers24`, source lines 211-217 and 269-275). -/
structure Job where
  title : String
  company : String
  link : String
  details : String
  source : String
deriving DecidableEq

/-- The value stored in the sent-jobs dictionary for one link
(`add_sent_job`, source lines 131-135). -/
structure SentEntry where
  source : String
  title : String
  sent_date : String
deriving DecidableEq

/-- The sent-jobs dictionary: an insertion-ordered map from job link to its
delivery record (`sent_jobs_data` in the source). -/
abbrev Ledger := List (String × SentEntry)

/-- Python `key in dict` for the ledger. -/
def dict_has_key (L : Ledger) (k : String) : Bool :=
  L.any (fun p => p.1 = k)

/-- Python `dict[key]` lookup (first — and, by the dict invariant, only —
binding of the key). -/
def dict_get : Ledger → String → Option SentEntry
  | [], _ => none
  | (k, v) :: rest, k' => if k = k' then some v else dict_get rest k'

/-- Python `d[k] = v`: replace in place when the key is present, append
otherwise. -/
def dict_set : Ledger → String → SentEntry → Ledger
  | [], k, v => [(k, v)]
  | (k', v') :: rest, k, v =>
    if k' = k then (k, v) :: rest else (k', v') :: dict_set rest k v

/-- `add_sent_job(sent_jobs_data, job_link, source, title)` (source lines
129-135). The Python function mutates the dict; here it returns the updated
ledger. `now` is the oracle for `datetime.now().isoformat()`. -/
def add_sent_job (L : Ledger) (job_link source title now : String) : Ledger :=
  dict_set L job_link ⟨source, title, now⟩

/-! ## Dedup ledger load (`load_sent_jobs`, source lines 67-95) -/

/-- Outcome of reading one serialized-ledger document (remote value or local
file): missing, present-but-undeserializable, or a ledger. -/
inductive StoreValue where
  | absent
  | corrupt
  | stored (L : Ledger)
deriving DecidableEq

/-- The storage world the loader observes: whether both Upstash REST
credentials are configured, whether the `PING` probe answered `PONG`, the
outcome of `GET job_scraper:sent_jobs`, and the state of the local
`sent_jobs.json` fallback file. A transport error or empty `result` field on
`GET` is `absent` (the source treats both as "no sent jobs found"). -/
structure StoreWorld where
  redisConfigured : Bool
  pingOk : Bool
  remoteGet : StoreValue
  localFile : StoreValue
deriving DecidableEq

/-- `test_redis_connection()` (source lines 48-65): `False` without
credentials, otherwise `True` exactly when the `ping` request returned a
response whose `result` is `"PONG"`. Never raises. -/
def test_redis_connection (w : StoreWorld) : Bool :=
  w.redisConfigured && w.pingOk

/-- `load_sent_jobs_fallback()` (source lines 86-95): the local file's ledger
when it exists and parses, the empty dict when it is missing or corrupt. -/
def load_sent_jobs_fallback (w : StoreWorld) : Ledger :=
  match w.localFile with
  | .stored L => L
  | _ => []

/-- `load_sent_jobs()` (source lines 67-84): fall back to the local file when
the probe fails; with a live remote, return the deserialized value, the empty
dict when the key is absent (or the response was falsy), and — because
`json.loads` raising lands in the `except` branch — the *local fallback*
when the stored value fails to deserialize. -/
def load_sent_jobs (w : StoreWorld) : Ledger :=
  if test_redis_connection w = false then load_sent_jobs_fallback w
  else
    match w.remoteGet with
    | .stored L => L
    | .absent => []
    | .corrupt => load_sent_jobs_fallback w

/-- Modelled from the spec (§4.2 `load`, as amended by the corrected claim):
empty ledger when the remote key is absent, local-fallback document (itself
empty-on-absent/empty-on-corrupt) when the remote value fails to deserialize
or the remote store is unavailable. Used only to state the refinement. -/
def load_policy_spec (w : StoreWorld) : Ledger :=
  if test_redis_connection w then
    match w.remoteGet with
    | .stored L => L
    | .absent => []
    | .corrupt => load_sent_jobs_fallback w
  else load_sent_jobs_fallback w

/-! ## Filter (source lines 351-357) -/

/-- The coordinator's filter loop:
`for job in all_jobs: if job['link'] not in sent_jobs_data: append`. -/
def filter_new_jobs (sent : Ledger) (all_jobs : List Job) : List Job :=
  all_jobs.foldl
    (fun acc job => if dict_has_key sent job.link then acc else acc ++ [job]) []

/-! ## Batcher (`format_jobs_for_telegram`, source lines 301-337) -/

/-- The rendered block for one job (source lines 320-325). Python truthiness:
the company line is emitted only for a non-empty company other than
`"Not specified"`, the details line only for non-empty details. -/
def render_job (j : Job) : String :=
  let m1 := "<b>Title:</b> " ++ j.title ++ "\n"
  let m2 :=
    if j.company ≠ "" ∧ j.company ≠ "Not specified" then
      m1 ++ "<b>Company:</b> " ++ j.company ++ "\n"
    else m1
  let m3 :=
    if j.details ≠ "" then
      m2 ++ "<b>Details:</b> <i>" ++ j.details ++ "</i>\n"
    else m2
  m3 ++ "<b>Link:</b> <a href=\x27" ++ j.link ++ "\x27>Apply Here</a>\n\n"

/-- The opening header for a source's first message (source line 317). -/
def source_header (source : String) : String :=
  "<b>🚀 New Job Listings from " ++ source ++ ":</b>\n\n"

/-- The continuation header used after a message is sealed (source line 330). -/
def more_header (source : String) : String :=
  "<b>🚀 More from " ++ source ++ ":</b>\n\n"

/-- One outbound message: its rendered text together with (ghost data, not
present in the source) the jobs whose blocks the text contains. -/
structure TMessage where
  text : String
  jobs : List Job
deriving DecidableEq, Inhabited

/-- The per-source message loop (source lines 319-335): seal the running
message when appending the next block would push it past 3800 characters and
restart from the continuation header, otherwise append; finally seal whatever
non-blank text remains. -/
def format_source_loop (source : String) :
    List Job → String → List Job → List TMessage → List TMessage
  | [], message, curJobs, acc =>
    if py_strip message ≠ "" then acc ++ [⟨py_strip message, curJobs⟩] else acc
  | job :: rest, message, curJobs, acc =>
    let jm := render_job job
    if 3800 < (message ++ jm).length then
      format_source_loop source rest (more_header source ++ jm) [job]
        (acc ++ [⟨py_strip message, curJobs⟩])
    else
      format_source_loop source rest (message ++ jm) (curJobs ++ [job]) acc

/-- All messages for one source group (loop body of source line 316). -/
def format_source (source : String) (js : List Job) : List TMessage :=
  format_source_loop source js (source_header source) [] []

/-- One step of the grouping loop (source lines 307-312): append the job to
its source's bucket, creating the bucket at the end on first sight. -/
def add_to_group (gs : List (String × List Job)) (j : Job) :
    List (String × List Job) :=
  match gs with
  | [] => [(j.source, [j])]
  | (s, js) :: rest =>
    if s = j.source then (s, js ++ [j]) :: rest
    else (s, js) :: add_to_group rest j

/-- `jobs_by_source` (source lines 307-312): a Python dict of lists keyed by
source, in first-seen source order. -/
def jobs_by_source (jobs : List Job) : List (String × List Job) :=
  jobs.foldl add_to_group []

/-- Concatenation of a grouping's buckets, in group order (used to state the
batch-completeness properties). -/
def join_groups (gs : List (String × List Job)) : List Job :=
  (gs.map Prod.snd).flatten

/-- `format_jobs_for_telegram(jobs)` (source lines 301-337): the sentinel
message on empty input, otherwise every source group's messages in group
order. -/
def format_jobs_for_telegram (jobs : List Job) : List TMessage :=
  if jobs = [] then [⟨"No new job listings found.", []⟩]
  else ((jobs_by_source jobs).map (fun p => format_source p.1 p.2)).flatten

/-! ## `split_message` (source lines 161-178) -/

/-- The accumulation loop of `split_message`: `message.split('\n')` is
consumed line by line; when `current_message + line + '\n'` would exceed
`max_length` a non-empty `current_message` is sealed (stripped) first; the
line is then appended; at the end a non-blank remainder is sealed. -/
def split_message_loop (max_length : Nat) :
    List (List Char) → List Char → List (List Char) → List (List Char)
  | [], current, acc =>
    if py_strip_chars current ≠ [] then acc ++ [py_strip_chars current] else acc
  | line :: rest, current, acc =>
    if max_length < current.length + line.length + 1 then
      if current = [] then
        split_message_loop max_length rest (current ++ line ++ ['\n']) acc
      else
        split_message_loop max_length rest (line ++ ['\n'])
          (acc ++ [py_strip_chars current])
    else
      split_message_loop max_length rest (current ++ line ++ ['\n']) acc

/-- `split_message(message, max_length=4000)` (source lines 161-178). -/
def split_message (message : String) (max_length : Nat) : List String :=
  (split_message_loop max_length (split_nl message.data) [] []).map String.mk

/-! ## Delivery coordinator (`main`, source lines 339-382) -/

/-- `send_telegram_message` outcome (source lines 137-159): `False` without
bot token or channel id, otherwise the transport oracle's verdict for this
call (`True` on successful delivery, `False` when the Telegram API raised). -/
def send_ok (creds : Bool) (transport : Nat → Bool) (i : Nat) : Bool :=
  creds && transport i

/-- The send loop of `main` (source lines 363-367): messages are sent
strictly in order; on the first `False` the loop breaks, leaving the
remaining messages unattempted. Returns the attempted messages and the
`success` flag. -/
def send_batches (ok : Nat → Bool) : List String → Nat → List String × Bool
  | [], _ => ([], true)
  | m :: rest, i =>
    if ok i then
      let r := send_batches ok rest (i + 1)
      (m :: r.1, r.2)
    else ([m], false)

/-- The commit loop of `main` (source lines 372-373): fold `add_sent_job`
over the sent jobs. -/
def record_all (L : Ledger) (new_jobs : List Job) (now : String) : Ledger :=
  new_jobs.foldl (fun L j => add_sent_job L j.link j.source j.title now) L

/-- Observable outcome of one coordinator run: the messages passed to
`send_telegram_message` in order, the final in-memory ledger, and the ledger
passed to `save_sent_jobs` (`none` when save was never invoked). -/
structure RunResult where
  attempted : List String
  finalLedger : Ledger
  savedLedger : Option Ledger
deriving DecidableEq

/-- `main()` (source lines 339-382) after the two oracle steps: `ledger0` is
what `load_sent_jobs` returned and `all_jobs` what `scrape_all_jobs`
returned. Filter against the ledger; when nothing is new, stop. Otherwise
format, send each message in order (breaking on the first failure), and only
on full success fold `add_sent_job` over the sent jobs and pass the updated
dict to `save_sent_jobs`. -/
def main_run (creds : Bool) (ledger0 : Ledger) (all_jobs : List Job)
    (transport : Nat → Bool) (now : String) : RunResult :=
  let new_jobs := filter_new_jobs ledger0 all_jobs
  if new_jobs = [] then ⟨[], ledger0, none⟩
  else
    let msgs := (format_jobs_for_telegram new_jobs).map (fun m => m.text)
    let r := send_batches (send_ok creds transport) msgs 0
    if r.2 then
      let updated := record_all ledger0 new_jobs now
      ⟨r.1, updated, some updated⟩
    else ⟨r.1, ledger0, none⟩

/-! ## Concrete sample data for counterexamples and witnesses -/

/-- A small, ordinary posting. -/
def jobA : Job := ⟨"Data Analyst", "Acme", "https://jobs/a", "Lagos", "Jobberman"⟩

/-- A second small posting with empty optional fields, from another source. -/
def jobB : Job := ⟨"QA Engineer", "", "https://jobs/b", "", "Careers24"⟩

/-- First of two postings that share one link inside a single run. -/
def dupJob1 : Job := ⟨"Frontend Dev", "Acme", "https://x/1", "remote", "Jobberman"⟩

/-- Second posting with the same link as `dupJob1` but different metadata. -/
def dupJob2 : Job := ⟨"Frontend Developer", "Acme Ltd", "https://x/1", "", "Careers24"⟩

/-- A posting whose rendered block is 3790 characters: below the 3800
threshold, yet `more_header "S" ++` the block is 3813 characters. -/
def bigJob : Job :=
  ⟨String.mk (List.replicate 3734 'a'), "Not specified", "L", "", "S"⟩

/-- A pre-existing ledger entry. -/
def entryX : SentEntry := ⟨"Jobberman", "Old job", "2025-01-01T00:00:00"⟩

/-! ## Filter lemmas -/

/-- The append-style filter loop of `main` is `List.filter`. -/
theorem filter_loop_eq (sent : Ledger) (jobs acc : List Job) :
    jobs.foldl
        (fun acc job => if dict_has_key sent job.link then acc else acc ++ [job])
        acc
      = acc ++ jobs.filter (fun j => !(dict_has_key sent j.link)) := by
  induction jobs generalizing acc with
  | nil => simp
  | cons j js ih =>
    simp only [List.foldl_cons, List.filter_cons]
    cases h : dict_has_key sent j.link <;> simp [h, ih]

theorem filter_new_jobs_eq_filter (sent : Ledger) (jobs : List Job) :
    filter_new_jobs sent jobs
      = jobs.filter (fun j => !(dict_has_key sent j.link)) := by
  simpa using filter_loop_eq sent jobs []

/-- C2: for every loaded ledger and aggregated posting sequence, the filter
step returns exactly the ordered subsequence of postings whose link is not a
key of the ledger: it equals `List.filter` by the not-in-ledger predicate, it
is a sublist of the input (order preserved), every selected posting's link is
missing from the ledger (so a posting whose link is in the ledger is never
selected), and every input posting whose link is missing is selected. The
function is a total Lean function, hence pure and never failing. -/
theorem filter_exact_subsequence (sent : Ledger) (jobs : List Job) :
    filter_new_jobs sent jobs = jobs.filter (fun j => !(dict_has_key sent j.link))
    ∧ (filter_new_jobs sent jobs).Sublist jobs
    ∧ (∀ j ∈ filter_new_jobs sent jobs, dict_has_key sent j.link = false)
    ∧ (∀ j ∈ jobs, dict_has_key sent j.link = false →
        j ∈ filter_new_jobs sent jobs) := by
  refine ⟨filter_new_jobs_eq_filter sent jobs, ?_, ?_, ?_⟩
  · rw [filter_new_jobs_eq_filter]
    exact List.filter_sublist jobs
  · intro j hj
    rw [filter_new_jobs_eq_filter] at hj
    have := List.of_mem_filter hj
    simpa using this
  · intro j hj hkey
    rw [filter_new_jobs_eq_filter]
    exact List.mem_filter.mpr ⟨hj, by simp [hkey]⟩

/-- C9: the filter is idempotent — filtering its own output against the same
ledger returns that output unchanged. (Mutation-freedom is inherent: the
embedding is purely functional, and the Lean function neither alters the
ledger nor the posting list.) -/
theorem filter_idempotent (sent : Ledger) (jobs : List Job) :
    filter_new_jobs sent (filter_new_jobs sent jobs)
      = filter_new_jobs sent jobs := by
  rw [filter_new_jobs_eq_filter, filter_new_jobs_eq_filter, List.filter_filter]
  simp

/-- C6 counterexample: two postings share link `https://x/1`, the loaded
ledger is empty, and the filter selects BOTH occurrences — the run does not
treat the second occurrence as a duplicate, contradicting the claim that
only the first occurrence is selected. -/
theorem within_run_duplicate_counterexample :
    dupJob1.link = dupJob2.link
    ∧ dict_has_key [] dupJob1.link = false
    ∧ filter_new_jobs [] [dupJob1, dupJob2] = [dupJob1, dupJob2]
    ∧ filter_new_jobs [] [dupJob1, dupJob2] ≠ [dupJob1] := by decide

/-- C6 amended: when the aggregated output contains several postings with
the same link and that link is not a key of the loaded ledger, every
occurrence is selected for delivery — the filter preserves the multiplicity
of each not-yet-sent link; deduplication happens only against the ledger. -/
theorem filter_preserves_duplicate_multiplicity (sent : Ledger)
    (jobs : List Job) (l : String) (h : dict_has_key sent l = false) :
    (filter_new_jobs sent jobs).countP (fun j => j.link == l)
      = jobs.countP (fun j => j.link == l) := by
  rw [filter_new_jobs_eq_filter, List.countP_filter]
  refine List.countP_congr ?_
  intro j _
  cases hl : (j.link == l) with
  | false => simp [hl]
  | true =>
    have : j.link = l := by simpa using hl
    simp [hl, this, h]

/-- C6 amended, witness: both duplicate occurrences survive the filter (the
multiplicity of link `https://x/1` is 2 before and after filtering). -/
theorem filter_preserves_duplicate_multiplicity_witness :
    dict_has_key [] "https://x/1" = false
    ∧ (filter_new_jobs [] [dupJob1, dupJob2]).countP
        (fun j => j.link == "https://x/1")
      = [dupJob1, dupJob2].countP (fun j => j.link == "https://x/1")
    ∧ [dupJob1, dupJob2].countP (fun j => j.link == "https://x/1") = 2 :=
  ⟨by decide,
   filter_preserves_duplicate_multiplicity [] [dupJob1, dupJob2] "https://x/1"
     (by decide),
   by decide⟩

/-! ## Loader lemmas -/

/-- C7 counterexample: the remote store is available (`PING` answers) but the
stored value fails to deserialize; the local fallback file holds a non-empty
ledger, and `load_sent_jobs` returns that non-empty ledger — not the empty
ledger the claim requires for a remote deserialization failure. -/
theorem load_corrupt_remote_counterexample :
    load_sent_jobs ⟨true, true, .corrupt, .stored [("https://x/1", entryX)]⟩
      = [("https://x/1", entryX)]
    ∧ ([("https://x/1", entryX)] : Ledger) ≠ ([] : Ledger) := by decide

/-- C7 amended: the load operation is total (a Lean function into `Ledger`,
so it never aborts the pipeline) and implements this policy: with the remote
store available it returns the deserialized value, the empty ledger when the
fixed key is absent, and falls back to the local document when the value
fails to deserialize; with the remote store unavailable it reads the local
fallback document, which is itself empty-on-absent and empty-on-corrupt.
Moreover the result is never invented: it is the empty ledger or exactly a
stored document. -/
theorem load_total_and_policy (w : StoreWorld) :
    load_sent_jobs w = load_policy_spec w
    ∧ (w.localFile = .absent ∨ w.localFile = .corrupt →
        load_sent_jobs_fallback w = [])
    ∧ (load_sent_jobs w = []
        ∨ w.remoteGet = .stored (load_sent_jobs w)
        ∨ w.localFile = .stored (load_sent_jobs w)) := by
  obtain ⟨conf, ping, rg, lf⟩ := w
  cases conf <;> cases ping <;> cases rg <;> cases lf <;>
    simp [load_sent_jobs, load_policy_spec, test_redis_connection,
      load_sent_jobs_fallback]

/-- C7 amended, witness: the policy instantiated at a concrete world with
no remote configuration and a corrupt local file — the load degrades to the
empty ledger and proceeds. -/
theorem load_total_and_policy_witness :
    load_sent_jobs ⟨false, false, .absent, .corrupt⟩
      = load_policy_spec ⟨false, false, .absent, .corrupt⟩
    ∧ ((⟨false, false, .absent, .corrupt⟩ : StoreWorld).localFile = .absent
        ∨ (⟨false, false, .absent, .corrupt⟩ : StoreWorld).localFile
            = .corrupt →
        load_sent_jobs_fallback ⟨false, false, .absent, .corrupt⟩ = [])
    ∧ (load_sent_jobs ⟨false, false, .absent, .corrupt⟩ = []
        ∨ (⟨false, false, .absent, .corrupt⟩ : StoreWorld).remoteGet
            = .stored (load_sent_jobs ⟨false, false, .absent, .corrupt⟩)
        ∨ (⟨false, false, .absent, .corrupt⟩ : StoreWorld).localFile
            = .stored (load_sent_jobs ⟨false, false, .absent, .corrupt⟩)) :=
  load_total_and_policy ⟨false, false, .absent, .corrupt⟩

/-! ## Dict and commit-fold lemmas -/

theorem dict_get_set_self (L : Ledger) (k : String) (v : SentEntry) :
    dict_get (dict_set L k v) k = some v := by
  induction L with
  | nil => simp [dict_set, dict_get]
  | cons p rest ih =>
    obtain ⟨k', v'⟩ := p
    by_cases h : k' = k
    · simp [dict_set, h, dict_get]
    · simp [dict_set, h, dict_get, ih]

theorem dict_get_set_other (L : Ledger) (k k' : String) (v : SentEntry)
    (h : k ≠ k') :
    dict_get (dict_set L k v) k' = dict_get L k' := by
  induction L with
  | nil => simp [dict_set, dict_get, h]
  | cons p rest ih =>
    obtain ⟨k0, v0⟩ := p
    by_cases h0 : k0 = k
    · simp [dict_set, h0, dict_get, h]
    · simp [dict_set, h0, dict_get, ih]

theorem dict_has_key_iff_get (L : Ledger) (k : String) :
    dict_has_key L k = true ↔ ∃ v, dict_get L k = some v := by
  induction L with
  | nil => simp [dict_has_key, dict_get]
  | cons p rest ih =>
    obtain ⟨k0, v0⟩ := p
    by_cases h0 : k0 = k
    · simp [dict_has_key, dict_get, h0]
    · simp only [dict_has_key, dict_get] at *
      simp [h0, ih]

theorem record_all_get_of_absent (js : List Job) (L : Ledger) (now l : String)
    (h : ∀ j ∈ js, j.link ≠ l) :
    dict_get (record_all L js now) l = dict_get L l := by
  induction js generalizing L with
  | nil => rfl
  | cons j rest ih =>
    have hj : j.link ≠ l := h j (by simp)
    have hrest : ∀ j' ∈ rest, j'.link ≠ l := fun j' hj' => h j' (by simp [hj'])
    simp only [record_all, List.foldl_cons]
    rw [show rest.foldl (fun L j => add_sent_job L j.link j.source j.title now)
          (add_sent_job L j.link j.source j.title now)
        = record_all (add_sent_job L j.link j.source j.title now) rest now
        from rfl]
    rw [ih _ hrest, add_sent_job, dict_get_set_other _ _ _ _ hj]

theorem record_all_get_of_mem (js : List Job) (L : Ledger) (now l : String)
    (h : ∃ j ∈ js, j.link = l) :
    ∃ j2, j2 ∈ js ∧ j2.link = l
      ∧ dict_get (record_all L js now) l = some ⟨j2.source, j2.title, now⟩ := by
  induction js generalizing L with
  | nil => obtain ⟨j, hj, _⟩ := h; simp at hj
  | cons j rest ih =>
    rw [show record_all L (j :: rest) now
        = record_all (add_sent_job L j.link j.source j.title now) rest now
        from rfl]
    by_cases hr : ∃ j' ∈ rest, j'.link = l
    · obtain ⟨j2, hmem, hlink, hget⟩ := ih _ hr
      exact ⟨j2, by simp [hmem], hlink, hget⟩
    · push_neg at hr
      have hj : j.link = l := by
        obtain ⟨j0, hj0, hl0⟩ := h
        rcases List.mem_cons.mp hj0 with h1 | h1
        · rw [← h1]; exact hl0
        · exact absurd hl0 (hr j0 h1)
      refine ⟨j, by simp, hj, ?_⟩
      rw [record_all_get_of_absent rest _ now l hr, add_sent_job, hj,
        dict_get_set_self]

/-! ## Send-loop lemmas -/

theorem send_batches_all_ok (ok : Nat → Bool) (msgs : List String) (i : Nat)
    (h : ∀ j, j < msgs.length → ok (i + j) = true) :
    send_batches ok msgs i = (msgs, true) := by
  induction msgs generalizing i with
  | nil => rfl
  | cons m rest ih =>
    have h0 : ok i = true := by simpa using h 0 (by simp)
    have hrest : ∀ j, j < rest.length → ok (i + 1 + j) = true := by
      intro j hj
      have := h (j + 1) (by simpa using Nat.succ_lt_succ hj)
      rwa [show i + (j + 1) = i + 1 + j by omega] at this
    simp [send_batches, h0, ih (i + 1) hrest]

theorem send_batches_first_fail (ok : Nat → Bool) (msgs : List String)
    (i : Nat) (h : ∃ j, j < msgs.length ∧ ok (i + j) = false) :
    ∃ k, k < msgs.length ∧ ok (i + k) = false
      ∧ (∀ j, j < k → ok (i + j) = true)
      ∧ send_batches ok msgs i = (msgs.take (k + 1), false) := by
  induction msgs generalizing i with
  | nil => obtain ⟨j, hj, _⟩ := h; simp at hj
  | cons m rest ih =>
    cases hok : ok i with
    | false =>
      refine ⟨0, by simp, by simpa using hok, by omega, ?_⟩
      simp [send_batches, hok]
    | true =>
      have h' : ∃ j, j < rest.length ∧ ok (i + 1 + j) = false := by
        obtain ⟨j, hj, hfail⟩ := h
        match j, hj, hfail with
        | 0, _, hfail => rw [Nat.add_zero] at hfail; rw [hok] at hfail; cases hfail
        | j + 1, hj, hfail =>
          exact ⟨j, by simpa using hj,
            by rwa [show i + 1 + j = i + (j + 1) by omega]⟩
      obtain ⟨k, hk, hfail, hprev, heq⟩ := ih (i + 1) h'
      refine ⟨k + 1, by simpa using Nat.succ_lt_succ hk,
        by rwa [show i + (k + 1) = i + 1 + k by omega], ?_, ?_⟩
      · intro j hj
        match j, hj with
        | 0, _ => simpa using hok
        | j + 1, hj =>
          have := hprev j (by omega)
          rwa [show i + (j + 1) = i + 1 + j by omega]
      · simp [send_batches, hok, heq, List.take_succ_cons]

/-! ## Coordinator claims -/

/-- C1: in a run where some batch send fails, the coordinator stops at the
first failing batch (the attempted messages are exactly the messages up to
and including the first failure, so the remaining batches are never
attempted), the final ledger is exactly the loaded ledger (no entry is added
for any posting of the run, including postings of batches sent successfully
before the failure), and `save_sent_jobs` is never invoked. -/
theorem aborted_run_preserves_ledger (creds : Bool) (L0 : Ledger)
    (all_jobs : List Job) (transport : Nat → Bool) (now : String)
    (hne : filter_new_jobs L0 all_jobs ≠ [])
    (hfail : ∃ i, i < ((format_jobs_for_telegram
        (filter_new_jobs L0 all_jobs)).map (fun m => m.text)).length
        ∧ send_ok creds transport i = false) :
    (main_run creds L0 all_jobs transport now).finalLedger = L0
    ∧ (main_run creds L0 all_jobs transport now).savedLedger = none
    ∧ ∃ k,
        k < ((format_jobs_for_telegram
          (filter_new_jobs L0 all_jobs)).map (fun m => m.text)).length
        ∧ send_ok creds transport k = false
        ∧ (∀ j, j < k → send_ok creds transport j = true)
        ∧ (main_run creds L0 all_jobs transport now).attempted
            = (((format_jobs_for_telegram
                (filter_new_jobs L0 all_jobs)).map (fun m => m.text)).take
                (k + 1)) := by
  have hfail' : ∃ j, j < ((format_jobs_for_telegram
      (filter_new_jobs L0 all_jobs)).map (fun m => m.text)).length
      ∧ send_ok creds transport (0 + j) = false := by
    simpa using hfail
  obtain ⟨k, hk, hfk, hprev, heq⟩ :=
    send_batches_first_fail (send_ok creds transport)
      ((format_jobs_for_telegram
        (filter_new_jobs L0 all_jobs)).map (fun m => m.text)) 0 hfail'
  refine ⟨?_, ?_, k, hk, by simpa using hfk,
    fun j hj => by simpa using hprev j hj, ?_⟩ <;>
    simp [main_run, hne, heq]

/-- C1 witness: a concrete aborted run (one new posting, transport always
failing) keeps the empty loaded ledger, performs no save, and attempts
exactly the first message. -/
theorem aborted_run_preserves_ledger_witness :
    (main_run true [] [jobA] (fun _ => false) "2026-01-01T00:00:00").finalLedger
      = []
    ∧ (main_run true [] [jobA]
        (fun _ => false) "2026-01-01T00:00:00").savedLedger = none
    ∧ ∃ k,
        k < ((format_jobs_for_telegram
          (filter_new_jobs [] [jobA])).map (fun m => m.text)).length
        ∧ send_ok true (fun _ => false) k = false
        ∧ (∀ j, j < k → send_ok true (fun _ => false) j = true)
        ∧ (main_run true [] [jobA]
            (fun _ => false) "2026-01-01T00:00:00").attempted
            = (((format_jobs_for_telegram
                (filter_new_jobs [] [jobA])).map (fun m => m.text)).take
                (k + 1)) :=
  aborted_run_preserves_ledger true [] [jobA] (fun _ => false)
    "2026-01-01T00:00:00" (by decide) ⟨0, by decide, by decide⟩

/-- C3: in a run where every batch send succeeds, the coordinator folds a
ledger entry (source, title, delivery timestamp) over every delivered
posting and passes exactly the updated ledger to `save_sent_jobs`; for every
delivered posting the final ledger has its link as a key, bound to an entry
whose timestamp is this run's clock value and whose source and title come
from a delivered posting with that same link. -/
theorem committed_run_records_all (creds : Bool) (L0 : Ledger)
    (all_jobs : List Job) (transport : Nat → Bool) (now : String)
    (hne : filter_new_jobs L0 all_jobs ≠ [])
    (hok : ∀ i, i < ((format_jobs_for_telegram
        (filter_new_jobs L0 all_jobs)).map (fun m => m.text)).length →
        send_ok creds transport i = true) :
    (main_run creds L0 all_jobs transport now).savedLedger
      = some (main_run creds L0 all_jobs transport now).finalLedger
    ∧ (main_run creds L0 all_jobs transport now).finalLedger
        = record_all L0 (filter_new_jobs L0 all_jobs) now
    ∧ ∀ j ∈ filter_new_jobs L0 all_jobs,
        dict_has_key (main_run creds L0 all_jobs transport now).finalLedger
            j.link = true
        ∧ ∃ j2, j2 ∈ filter_new_jobs L0 all_jobs ∧ j2.link = j.link
            ∧ dict_get (main_run creds L0 all_jobs transport now).finalLedger
                j.link = some ⟨j2.source, j2.title, now⟩ := by
  have hsend := send_batches_all_ok (send_ok creds transport)
    ((format_jobs_for_telegram
      (filter_new_jobs L0 all_jobs)).map (fun m => m.text)) 0
    (fun j hj => by simpa using hok j hj)
  have hrun : main_run creds L0 all_jobs transport now
      = ⟨(format_jobs_for_telegram
            (filter_new_jobs L0 all_jobs)).map (fun m => m.text),
         record_all L0 (filter_new_jobs L0 all_jobs) now,
         some (record_all L0 (filter_new_jobs L0 all_jobs) now)⟩ := by
    simp [main_run, hne, hsend]
  refine ⟨by rw [hrun], by rw [hrun], ?_⟩
  intro j hj
  obtain ⟨j2, hmem, hlink, hget⟩ :=
    record_all_get_of_mem (filter_new_jobs L0 all_jobs) L0 now j.link
      ⟨j, hj, rfl⟩
  rw [hrun]
  exact ⟨(dict_has_key_iff_get _ _).mpr ⟨_, hget⟩, j2, hmem, hlink, hget⟩

/-- C3 witness: a concrete fully successful run over two postings commits
both links and saves the updated ledger. -/
theorem committed_run_records_all_witness :
    (main_run true [] [jobA, jobB]
        (fun _ => true) "2026-01-01T00:00:00").savedLedger
      = some (main_run true [] [jobA, jobB]
          (fun _ => true) "2026-01-01T00:00:00").finalLedger
    ∧ (main_run true [] [jobA, jobB]
        (fun _ => true) "2026-01-01T00:00:00").finalLedger
        = record_all [] (filter_new_jobs [] [jobA, jobB]) "2026-01-01T00:00:00"
    ∧ ∀ j ∈ filter_new_jobs [] [jobA, jobB],
        dict_has_key (main_run true [] [jobA, jobB]
            (fun _ => true) "2026-01-01T00:00:00").finalLedger j.link = true
        ∧ ∃ j2, j2 ∈ filter_new_jobs [] [jobA, jobB] ∧ j2.link = j.link
            ∧ dict_get (main_run true [] [jobA, jobB]
                (fun _ => true) "2026-01-01T00:00:00").finalLedger j.link
              = some ⟨j2.source, j2.title, "2026-01-01T00:00:00"⟩ :=
  committed_run_records_all true [] [jobA, jobB] (fun _ => true)
    "2026-01-01T00:00:00" (by decide) (fun i _ => rfl)

/-! ## Grouping lemmas -/

theorem add_to_group_keys (gs : List (String × List Job)) (j : Job) :
    (add_to_group gs j).map Prod.fst
      = if j.source ∈ gs.map Prod.fst then gs.map Prod.fst
        else gs.map Prod.fst ++ [j.source] := by
  induction gs with
  | nil => simp [add_to_group]
  | cons p rest ih =>
    obtain ⟨s, js⟩ := p
    by_cases h : s = j.source
    · simp [add_to_group, h]
    · have hmem : j.source ∈ s :: rest.map Prod.fst
          ↔ j.source ∈ rest.map Prod.fst := by
        simp [Ne.symm h]
      by_cases h2 : j.source ∈ rest.map Prod.fst
      · simp only [add_to_group, if_neg h, List.map_cons, ih, if_pos h2]
        simp [hmem, h2]
      · simp only [add_to_group, if_neg h, List.map_cons, ih, if_neg h2]
        simp [hmem, h2]

theorem add_to_group_sources (gs : List (String × List Job)) (j : Job)
    (hsrc : ∀ p ∈ gs, ∀ x ∈ p.2, x.source = p.1) :
    ∀ p ∈ add_to_group gs j, ∀ x ∈ p.2, x.source = p.1 := by
  induction gs with
  | nil =>
    intro p hp x hx
    simp [add_to_group] at hp
    subst hp
    simp at hx
    subst hx
    rfl
  | cons q rest ih =>
    obtain ⟨s, js⟩ := q
    by_cases h : s = j.source
    · intro p hp x hx
      simp only [add_to_group, if_pos h] at hp
      rcases List.mem_cons.mp hp with h1 | h1
      · subst h1
        simp only at hx
        rcases List.mem_append.mp hx with h2 | h2
        · exact hsrc (s, js) (by simp) x h2
        · simp at h2
          subst h2
          exact h.symm
      · exact hsrc p (by simp [h1]) x hx
    · intro p hp x hx
      simp only [add_to_group, if_neg h] at hp
      rcases List.mem_cons.mp hp with h1 | h1
      · subst h1
        exact hsrc (s, js) (by simp) x hx
      · exact ih (fun q hq => hsrc q (by simp [hq])) p h1 x hx

theorem add_to_group_keys_nodup (gs : List (String × List Job)) (j : Job)
    (hkeys : (gs.map Prod.fst).Nodup) :
    ((add_to_group gs j).map Prod.fst).Nodup := by
  rw [add_to_group_keys]
  by_cases h : j.source ∈ gs.map Prod.fst
  · simpa [h] using hkeys
  · simp only [if_neg h]
    simpa [List.nodup_append, h] using hkeys

theorem add_to_group_flatten_perm (gs : List (String × List Job)) (j : Job) :
    (join_groups (add_to_group gs j)).Perm (join_groups gs ++ [j]) := by
  induction gs with
  | nil => simp [add_to_group, join_groups]
  | cons p rest ih =>
    obtain ⟨s, js⟩ := p
    by_cases h : s = j.source
    · simp only [add_to_group, if_pos h, join_groups, List.map_cons,
        List.flatten_cons]
      rw [show (js ++ [j]) ++ (List.map Prod.snd rest).flatten
          = js ++ ([j] ++ (List.map Prod.snd rest).flatten) by simp,
        show (js ++ (List.map Prod.snd rest).flatten) ++ [j]
          = js ++ ((List.map Prod.snd rest).flatten ++ [j]) by simp]
      exact List.Perm.append_left js List.perm_append_comm
    · simp only [add_to_group, if_neg h, join_groups, List.map_cons,
        List.flatten_cons]
      have := List.Perm.append_left js (by simpa [join_groups] using ih)
      simpa using this

theorem jobs_by_source_flatten_perm_aux (jobs : List Job)
    (gs : List (String × List Job)) :
    (join_groups (jobs.foldl add_to_group gs)).Perm (join_groups gs ++ jobs) := by
  induction jobs generalizing gs with
  | nil => simp
  | cons j rest ih =>
    simp only [List.foldl_cons]
    refine (ih (add_to_group gs j)).trans ?_
    have := List.Perm.append_right rest (add_to_group_flatten_perm gs j)
    simpa using this

/-- Grouping by source, then flattening, is a permutation of the input. -/
theorem jobs_by_source_flatten_perm (jobs : List Job) :
    (join_groups (jobs_by_source jobs)).Perm jobs := by
  simpa [join_groups, jobs_by_source] using jobs_by_source_flatten_perm_aux jobs []

theorem add_to_group_insert_split (gs : List (String × List Job)) (j : Job)
    (hsrc : ∀ p ∈ gs, ∀ x ∈ p.2, x.source = p.1)
    (hkeys : (gs.map Prod.fst).Nodup) :
    ∃ A B, join_groups gs = A ++ B
      ∧ join_groups (add_to_group gs j) = A ++ j :: B
      ∧ ∀ x ∈ B, x.source ≠ j.source := by
  induction gs with
  | nil => exact ⟨[], [], by simp [join_groups], by simp [join_groups, add_to_group], by simp⟩
  | cons p rest ih =>
    obtain ⟨s, js⟩ := p
    by_cases h : s = j.source
    · refine ⟨js, join_groups rest, by simp [join_groups], ?_, ?_⟩
      · simp [add_to_group, if_pos h, join_groups]
      · intro x hx
        have hx' : x ∈ (rest.map Prod.snd).flatten := hx
        obtain ⟨l, hl, hxl⟩ := List.mem_flatten.mp hx'
        obtain ⟨q, hq, rfl⟩ := List.mem_map.mp hl
        have hxs : x.source = q.1 :=
          hsrc q (List.mem_cons_of_mem _ hq) x hxl
        have hkeys' : (s :: rest.map Prod.fst).Nodup := hkeys
        have hsnot : s ∉ rest.map Prod.fst := (List.nodup_cons.mp hkeys').1
        have hkey : q.1 ≠ s := by
          intro hqs
          exact hsnot (hqs ▸ List.mem_map_of_mem Prod.fst hq)
        rw [hxs, ← h]
        exact hkey
    · have hkeys' : (s :: rest.map Prod.fst).Nodup := hkeys
      obtain ⟨A, B, h1, h2, h3⟩ :=
        ih (fun q hq => hsrc q (List.mem_cons_of_mem _ hq))
          (List.nodup_cons.mp hkeys').2
      simp only [join_groups] at h1 h2
      refine ⟨js ++ A, B, ?_, ?_, h3⟩
      · simp only [join_groups, List.map_cons, List.flatten_cons]
        rw [h1]
        simp
      · simp only [add_to_group, if_neg h, join_groups, List.map_cons,
          List.flatten_cons]
        rw [h2]
        simp

theorem add_to_group_filter (gs : List (String × List Job)) (j : Job)
    (s : String)
    (hsrc : ∀ p ∈ gs, ∀ x ∈ p.2, x.source = p.1)
    (hkeys : (gs.map Prod.fst).Nodup) :
    (join_groups (add_to_group gs j)).filter (fun x => x.source == s)
      = (join_groups gs).filter (fun x => x.source == s)
        ++ if j.source == s then [j] else [] := by
  obtain ⟨A, B, h1, h2, h3⟩ := add_to_group_insert_split gs j hsrc hkeys
  rw [h1, h2, List.filter_append, List.filter_append, List.filter_cons]
  cases hjs : (j.source == s) with
  | false => simp
  | true =>
    have hs : j.source = s := by simpa using hjs
    have hB : B.filter (fun x => x.source == s) = [] := by
      rw [List.filter_eq_nil_iff]
      intro x hx
      have := h3 x hx
      simp [← hs, this]
    simp [hB, hjs]

theorem jobs_by_source_sources (jobs : List Job)
    (gs : List (String × List Job))
    (hsrc : ∀ p ∈ gs, ∀ x ∈ p.2, x.source = p.1)
    (hkeys : (gs.map Prod.fst).Nodup) :
    (∀ p ∈ jobs.foldl add_to_group gs, ∀ x ∈ p.2, x.source = p.1)
    ∧ ((jobs.foldl add_to_group gs).map Prod.fst).Nodup := by
  induction jobs generalizing gs with
  | nil => exact ⟨hsrc, hkeys⟩
  | cons j rest ih =>
    simp only [List.foldl_cons]
    exact ih (add_to_group gs j)
      (add_to_group_sources gs j hsrc) (add_to_group_keys_nodup gs j hkeys)

theorem jobs_by_source_filter_aux (jobs : List Job)
    (gs : List (String × List Job)) (s : String)
    (hsrc : ∀ p ∈ gs, ∀ x ∈ p.2, x.source = p.1)
    (hkeys : (gs.map Prod.fst).Nodup) :
    (join_groups (jobs.foldl add_to_group gs)).filter (fun x => x.source == s)
      = (join_groups gs).filter (fun x => x.source == s)
        ++ jobs.filter (fun x => x.source == s) := by
  induction jobs generalizing gs with
  | nil => simp
  | cons j rest ih =>
    simp only [List.foldl_cons, List.filter_cons]
    rw [ih (add_to_group gs j) (add_to_group_sources gs j hsrc)
        (add_to_group_keys_nodup gs j hkeys),
      add_to_group_filter gs j s hsrc hkeys]
    cases hjs : (j.source == s) with
    | false => simp
    | true => simp

/-- Grouping preserves the per-source subsequences exactly. -/
theorem jobs_by_source_filter (jobs : List Job) (s : String) :
    (join_groups (jobs_by_source jobs)).filter (fun x => x.source == s)
      = jobs.filter (fun x => x.source == s) := by
  simpa [join_groups, jobs_by_source]
    using jobs_by_source_filter_aux jobs [] s (by simp) (by simp)

/-! ## Strip lemmas -/

theorem py_strip_chars_eq_nil_iff (l : List Char) :
    py_strip_chars l = [] ↔ ∀ c ∈ l, c.isWhitespace = true := by
  constructor
  · intro h c hc
    rw [← List.takeWhile_append_dropWhile (p := Char.isWhitespace) (l := l)]
      at hc
    rcases List.mem_append.mp hc with h1 | h1
    · exact List.mem_takeWhile_imp h1
    · exact (List.rdropWhile_eq_nil_iff.mp h) c h1
  · intro h
    simp [py_strip_chars, List.dropWhile_eq_nil_iff.mpr h]

theorem py_strip_ne_empty (cur : String)
    (hw : ∃ c ∈ cur.data, c.isWhitespace = false) : py_strip cur ≠ "" := by
  intro hcontra
  obtain ⟨c, hc, hws⟩ := hw
  have hnil : py_strip_chars cur.data = [] := congrArg String.data hcontra
  have := (py_strip_chars_eq_nil_iff cur.data).mp hnil c hc
  rw [this] at hws
  cases hws

theorem py_strip_chars_length_le (l : List Char) :
    (py_strip_chars l).length ≤ l.length := by
  have h1 : ∀ x : List Char,
      (List.rdropWhile Char.isWhitespace x).length ≤ x.length := by
    intro x
    rw [List.rdropWhile, List.length_reverse]
    calc (List.dropWhile Char.isWhitespace x.reverse).length
        ≤ x.reverse.length := (List.dropWhile_sublist _).length_le
      _ = x.length := List.length_reverse x
  exact le_trans (h1 _) ((List.dropWhile_sublist _).length_le)

theorem py_strip_length_le (s : String) : (py_strip s).length ≤ s.length :=
  py_strip_chars_length_le s.data

theorem rdropWhile_ws_append (x w : List Char) :
    (∀ e ∈ w, e.isWhitespace = true) →
    List.rdropWhile Char.isWhitespace (x ++ w)
      = List.rdropWhile Char.isWhitespace x := by
  induction w using List.reverseRecOn with
  | nil =>
    intro _
    simp
  | append_singleton w2 e ih =>
    intro hw
    have he : e.isWhitespace = true := hw e (by simp)
    have hw2 : ∀ e2 ∈ w2, e2.isWhitespace = true :=
      fun e2 h2 => hw e2 (by simp [h2])
    rw [show x ++ (w2 ++ [e]) = (x ++ w2) ++ [e] by simp,
      List.rdropWhile_concat_pos _ _ _ he, ih hw2]

/-- Stripping a list that starts and ends with a non-whitespace character,
followed by a whitespace tail, removes exactly that tail. -/
theorem py_strip_chars_sandwich (c d : Char) (mid w : List Char)
    (hc : c.isWhitespace = false) (hd : d.isWhitespace = false)
    (hw : ∀ e ∈ w, e.isWhitespace = true) :
    py_strip_chars ((c :: (mid ++ [d])) ++ w) = c :: (mid ++ [d]) := by
  simp only [py_strip_chars]
  rw [show (c :: (mid ++ [d])) ++ w = c :: (mid ++ [d] ++ w) by simp]
  rw [List.dropWhile_cons_of_neg (by simp [hc])]
  rw [show c :: (mid ++ [d] ++ w) = ((c :: mid) ++ [d]) ++ w by simp]
  rw [rdropWhile_ws_append _ w hw]
  rw [List.rdropWhile_concat_neg _ _ _ (by simp [hd])]
  simp

theorem has_nonws_append_left (s t : String)
    (h : ∃ c ∈ s.data, c.isWhitespace = false) :
    ∃ c ∈ (s ++ t).data, c.isWhitespace = false := by
  obtain ⟨c, hc, hws⟩ := h
  refine ⟨c, ?_, hws⟩
  rw [String.data_append]
  exact List.mem_append_left _ hc

theorem source_header_has_nonws (s : String) :
    ∃ c ∈ (source_header s).data, c.isWhitespace = false := by
  refine ⟨'<', ?_, by decide⟩
  simp only [source_header, String.data_append]
  exact List.mem_append_left _ (List.mem_append_left _ (by decide))

theorem more_header_has_nonws (s : String) :
    ∃ c ∈ (more_header s).data, c.isWhitespace = false := by
  refine ⟨'<', ?_, by decide⟩
  simp only [more_header, String.data_append]
  exact List.mem_append_left _ (List.mem_append_left _ (by decide))

/-! ## Batcher lemmas -/

theorem format_source_loop_jobs (source : String) (js : List Job) :
    ∀ (cur : String) (curJobs : List Job) (acc : List TMessage),
    (∃ c ∈ cur.data, c.isWhitespace = false) →
    ((format_source_loop source js cur curJobs acc).map
        (fun m => m.jobs)).flatten
      = (acc.map (fun m => m.jobs)).flatten ++ curJobs ++ js := by
  induction js with
  | nil =>
    intro cur curJobs acc hw
    simp only [format_source_loop, if_pos (py_strip_ne_empty cur hw)]
    simp
  | cons job rest ih =>
    intro cur curJobs acc hw
    simp only [format_source_loop]
    by_cases hg : 3800 < (cur ++ render_job job).length
    · rw [if_pos hg,
        ih (more_header source ++ render_job job) [job]
          (acc ++ [TMessage.mk (py_strip cur) curJobs])
          (has_nonws_append_left _ _ (more_header_has_nonws source))]
      simp
    · rw [if_neg hg,
        ih (cur ++ render_job job) (curJobs ++ [job]) acc
          (has_nonws_append_left _ _ hw)]
      simp

theorem format_source_jobs (source : String) (js : List Job) :
    ((format_source source js).map (fun m => m.jobs)).flatten = js := by
  simpa using format_source_loop_jobs source js (source_header source) [] []
    (source_header_has_nonws source)

theorem format_jobs_delivered (jobs : List Job) (h : jobs ≠ []) :
    ((format_jobs_for_telegram jobs).map (fun m => m.jobs)).flatten
      = join_groups (jobs_by_source jobs) := by
  simp only [format_jobs_for_telegram, if_neg h, join_groups,
    List.map_flatten, List.flatten_flatten, List.map_map]
  congr 1
  refine List.map_congr_left fun p _ => ?_
  simpa [Function.comp] using format_source_jobs p.1 p.2

theorem format_jobs_delivered_perm (jobs : List Job) (h : jobs ≠ []) :
    (((format_jobs_for_telegram jobs).map (fun m => m.jobs)).flatten).Perm
      jobs := by
  rw [format_jobs_delivered jobs h]
  exact jobs_by_source_flatten_perm jobs

theorem format_jobs_nonempty (jobs : List Job) :
    format_jobs_for_telegram jobs ≠ [] := by
  by_cases h : jobs = []
  · subst h
    simp [format_jobs_for_telegram]
  · intro hcontra
    have hperm := format_jobs_delivered_perm jobs h
    rw [hcontra] at hperm
    simp only [List.map_nil, List.flatten_nil] at hperm
    exact h (hperm.nil_eq).symm

theorem format_source_loop_sources (s : String) (js : List Job) :
    ∀ (cur : String) (curJobs : List Job) (acc : List TMessage),
    (∀ m ∈ acc, ∀ j ∈ m.jobs, j.source = s) →
    (∀ j ∈ curJobs, j.source = s) →
    (∀ j ∈ js, j.source = s) →
    ∀ m ∈ format_source_loop s js cur curJobs acc, ∀ j ∈ m.jobs,
      j.source = s := by
  induction js with
  | nil =>
    intro cur curJobs acc hacc hcur _ m hm
    simp only [format_source_loop] at hm
    by_cases hst : py_strip cur ≠ ""
    · rw [if_pos hst] at hm
      rcases List.mem_append.mp hm with h1 | h1
      · exact hacc m h1
      · simp only [List.mem_singleton] at h1
        subst h1
        exact hcur
    · rw [if_neg hst] at hm
      exact hacc m hm
  | cons job rest ih =>
    intro cur curJobs acc hacc hcur hjs m hm
    simp only [format_source_loop] at hm
    by_cases hg : 3800 < (cur ++ render_job job).length
    · rw [if_pos hg] at hm
      refine ih _ _ _ ?_ ?_ (fun j hj => hjs j (by simp [hj])) m hm
      · intro m' hm'
        rcases List.mem_append.mp hm' with h1 | h1
        · exact hacc m' h1
        · simp only [List.mem_singleton] at h1
          subst h1
          exact hcur
      · intro j hj
        simp only [List.mem_singleton] at hj
        rw [hj]
        exact hjs job (by simp)
    · rw [if_neg hg] at hm
      refine ih _ _ _ hacc ?_ (fun j hj => hjs j (by simp [hj])) m hm
      intro j hj
      rcases List.mem_append.mp hj with h1 | h1
      · exact hcur j h1
      · simp only [List.mem_singleton] at h1
        rw [h1]
        exact hjs job (by simp)

theorem sealed_message_ok (cur : String) (curJobs : List Job)
    (hcur : 2 ≤ curJobs.length → cur.length ≤ 3800) :
    (py_strip cur).length ≤ 3800 ∨ curJobs.length ≤ 1 := by
  by_cases hn : curJobs.length ≤ 1
  · right
    exact hn
  · left
    calc (py_strip cur).length ≤ cur.length := py_strip_length_le cur
      _ ≤ 3800 := hcur (by omega)

theorem format_source_loop_size (s : String) (js : List Job) :
    ∀ (cur : String) (curJobs : List Job) (acc : List TMessage),
    (∀ m ∈ acc, m.text.length ≤ 3800 ∨ m.jobs.length ≤ 1) →
    (2 ≤ curJobs.length → cur.length ≤ 3800) →
    ∀ m ∈ format_source_loop s js cur curJobs acc,
      m.text.length ≤ 3800 ∨ m.jobs.length ≤ 1 := by
  induction js with
  | nil =>
    intro cur curJobs acc hacc hcur m hm
    simp only [format_source_loop] at hm
    by_cases hst : py_strip cur ≠ ""
    · rw [if_pos hst] at hm
      rcases List.mem_append.mp hm with h1 | h1
      · exact hacc m h1
      · simp only [List.mem_singleton] at h1
        subst h1
        exact sealed_message_ok cur curJobs hcur
    · rw [if_neg hst] at hm
      exact hacc m hm
  | cons job rest ih =>
    intro cur curJobs acc hacc hcur m hm
    simp only [format_source_loop] at hm
    by_cases hg : 3800 < (cur ++ render_job job).length
    · rw [if_pos hg] at hm
      refine ih _ _ _ ?_ ?_ m hm
      · intro m' hm'
        rcases List.mem_append.mp hm' with h1 | h1
        · exact hacc m' h1
        · simp only [List.mem_singleton] at h1
          subst h1
          exact sealed_message_ok cur curJobs hcur
      · intro h2
        simp at h2
    · rw [if_neg hg] at hm
      refine ih _ _ _ hacc ?_ m hm
      intro _
      exact Nat.le_of_not_lt hg

/-! ## Batcher claims -/

/-- C4: for every non-empty input, the batcher's messages partition the
input exactly — concatenating the per-message posting lists is a permutation
of the input (every posting lands in exactly one message, none dropped or
duplicated), for every source the postings of that source appear across the
messages in exactly their input order, and no message mixes postings of two
different sources. -/
theorem batcher_partitions_input (jobs : List Job) (h : jobs ≠ []) :
    (((format_jobs_for_telegram jobs).map (fun m => m.jobs)).flatten).Perm jobs
    ∧ (∀ s, (((format_jobs_for_telegram jobs).map
          (fun m => m.jobs)).flatten).filter (fun j => j.source == s)
        = jobs.filter (fun j => j.source == s))
    ∧ ∀ m ∈ format_jobs_for_telegram jobs, ∀ j1 ∈ m.jobs, ∀ j2 ∈ m.jobs,
        j1.source = j2.source := by
  refine ⟨format_jobs_delivered_perm jobs h, ?_, ?_⟩
  · intro s
    rw [format_jobs_delivered jobs h]
    exact jobs_by_source_filter jobs s
  · intro m hm j1 hj1 j2 hj2
    rw [format_jobs_for_telegram, if_neg h] at hm
    obtain ⟨l, hl, hml⟩ := List.mem_flatten.mp hm
    obtain ⟨p, hp, rfl⟩ := List.mem_map.mp hl
    have hinv := jobs_by_source_sources jobs [] (by simp) (by simp)
    have hgrp : ∀ x ∈ p.2, x.source = p.1 := hinv.1 p hp
    have hall := format_source_loop_sources p.1 p.2 (source_header p.1) [] []
      (by simp) (by simp) hgrp m hml
    rw [hall j1 hj1, hall j2 hj2]

/-- C4 witness: a concrete two-posting, two-source run satisfies the
partition properties. -/
theorem batcher_partitions_input_witness :
    (((format_jobs_for_telegram [jobA, jobB]).map
        (fun m => m.jobs)).flatten).Perm [jobA, jobB]
    ∧ (∀ s, (((format_jobs_for_telegram [jobA, jobB]).map
          (fun m => m.jobs)).flatten).filter (fun j => j.source == s)
        = [jobA, jobB].filter (fun j => j.source == s))
    ∧ ∀ m ∈ format_jobs_for_telegram [jobA, jobB], ∀ j1 ∈ m.jobs,
        ∀ j2 ∈ m.jobs, j1.source = j2.source :=
  batcher_partitions_input [jobA, jobB] (by decide)

/-- C5 counterexample: for the single posting `bigJob` (rendered block 3790
characters, below the 3800 threshold) the batcher emits a message of 3811
characters — over the threshold — that consists of that single posting whose
block does NOT alone exceed the threshold, refuting the claim that only
postings whose rendered block alone exceeds the threshold can produce an
oversized message. (The batcher also seals a posting-free bare-header
message of 33 characters first.) -/
theorem batch_size_counterexample :
    ¬ (∀ m ∈ format_jobs_for_telegram [bigJob],
        m.text.length ≤ 3800
        ∨ (m.jobs.length = 1 ∧ ∀ j ∈ m.jobs, 3800 < (render_job j).length)) := by
  have hcond1 : ¬(bigJob.company ≠ "" ∧ bigJob.company ≠ "Not specified") := by
    decide
  have hcond2 : ¬(bigJob.details ≠ "") := by decide
  have hrender : render_job bigJob
      = (("<b>Title:</b> " ++ bigJob.title ++ "\n")
          ++ "<b>Link:</b> <a href=\x27" ++ bigJob.link
          ++ "\x27>Apply Here</a>\n\n") := by
    simp only [render_job, if_neg hcond1, if_neg hcond2]
  have hT : bigJob.title.length = 3734 := by
    rw [show bigJob.title = String.mk (List.replicate 3734 'a') from rfl,
      String.mk_length, List.length_replicate]
  have hRlen : (render_job bigJob).length = 3790 := by
    rw [hrender]
    simp only [String.length_append]
    have h1 : ("<b>Title:</b> " : String).length = 14 := by decide
    have h2 : ("\n" : String).length = 1 := by decide
    have h3 : ("<b>Link:</b> <a href=\x27" : String).length = 22 := by decide
    have h4 : bigJob.link.length = 1 := by decide
    have h5 : ("\x27>Apply Here</a>\n\n" : String).length = 18 := by decide
    omega
  have hhead : (source_header "S").length = 35 := by decide
  have hguard : 3800 < (source_header "S" ++ render_job bigJob).length := by
    rw [String.length_append, hhead, hRlen]
    omega
  have hne1 : py_strip (more_header "S" ++ render_job bigJob) ≠ "" :=
    py_strip_ne_empty _ (has_nonws_append_left _ _ (more_header_has_nonws "S"))
  have hgrp : jobs_by_source [bigJob] = [("S", [bigJob])] := rfl
  have htrace : format_jobs_for_telegram [bigJob]
      = [⟨py_strip (source_header "S"), []⟩,
         ⟨py_strip (more_header "S" ++ render_job bigJob), [bigJob]⟩] := by
    rw [format_jobs_for_telegram, if_neg (by simp), hgrp]
    simp only [List.map_cons, List.map_nil, List.flatten_cons, List.flatten_nil]
    rw [format_source]
    simp only [format_source_loop]
    rw [if_pos hguard]
    rw [if_pos hne1]
    simp
  have hrdata2 : (render_job bigJob).data
      = ("<b>Title:</b> " : String).data
        ++ (bigJob.title.data
          ++ (("\n<b>Link:</b> <a href=\x27L\x27>Apply Here</a" : String).data
            ++ ['>', '\n', '\n'])) := by
    rw [hrender]
    simp only [String.data_append, List.append_assoc]
    congr 1
  have hmoredata : (more_header "S").data
      = '<' :: ("b>🚀 More from S:</b>\n\n" : String).data := by decide
  obtain ⟨mid, hD⟩ : ∃ mid, (more_header "S" ++ render_job bigJob).data
      = ('<' :: (mid ++ ['>'])) ++ ['\n', '\n'] := by
    refine ⟨("b>🚀 More from S:</b>\n\n" : String).data
      ++ (("<b>Title:</b> " : String).data
        ++ (bigJob.title.data
          ++ ("\n<b>Link:</b> <a href=\x27L\x27>Apply Here</a" : String).data)),
      ?_⟩
    rw [String.data_append, hmoredata, hrdata2]
    simp [List.append_assoc]
  have hstrip : py_strip_chars (more_header "S" ++ render_job bigJob).data
      = '<' :: (mid ++ ['>']) := by
    rw [hD]
    exact py_strip_chars_sandwich '<' '>' mid ['\n', '\n'] (by decide)
      (by decide) (by decide)
  have hmorelen : (more_header "S").length = 23 := by decide
  have hlen2 : (more_header "S" ++ render_job bigJob).data.length = 3813 := by
    show (more_header "S" ++ render_job bigJob).length = 3813
    rw [String.length_append, hmorelen, hRlen]
  have hmidlen : mid.length = 3809 := by
    rw [hD] at hlen2
    simp at hlen2
    omega
  have hstriplen :
      (py_strip (more_header "S" ++ render_job bigJob)).length = 3811 := by
    show (py_strip_chars (more_header "S" ++ render_job bigJob).data).length
      = 3811
    rw [hstrip]
    simp
    omega
  intro hall
  have hmem : (⟨py_strip (more_header "S" ++ render_job bigJob), [bigJob]⟩
      : TMessage) ∈ format_jobs_for_telegram [bigJob] := by
    rw [htrace]
    simp
  rcases hall _ hmem with hle | ⟨_, hbig⟩
  · have hle2 : (py_strip (more_header "S" ++ render_job bigJob)).length
        ≤ 3800 := hle
    omega
  · have hj : bigJob ∈ (⟨py_strip (more_header "S" ++ render_job bigJob),
        [bigJob]⟩ : TMessage).jobs := by
      simp
    have hgt := hbig bigJob hj
    rw [hRlen] at hgt
    omega

/-- C5 amended: every message the batcher produces either has rendered text
length at most the 3800-character threshold or contains at most one posting;
equivalently, only messages carrying a single posting (sealed continuation
header plus a large rendered block) or no posting (a bare header sealed by
an immediately overflowing first posting) can exceed the threshold. Such an
oversized single posting is still emitted, not dropped (its presence in
exactly one message is the partition property of the batcher). -/
theorem batch_size_bound (jobs : List Job) :
    ∀ m ∈ format_jobs_for_telegram jobs,
      m.text.length ≤ 3800 ∨ m.jobs.length ≤ 1 := by
  intro m hm
  by_cases h : jobs = []
  · subst h
    have hm' : m = ⟨"No new job listings found.", []⟩ := by
      simpa [format_jobs_for_telegram] using hm
    subst hm'
    left
    decide
  · rw [format_jobs_for_telegram, if_neg h] at hm
    obtain ⟨l, hl, hml⟩ := List.mem_flatten.mp hm
    obtain ⟨p, hp, rfl⟩ := List.mem_map.mp hl
    refine format_source_loop_size p.1 p.2 (source_header p.1) [] []
      (by simp) ?_ m hml
    intro h2
    simp at h2

/-- C5 amended, witness: in a concrete two-posting single-source run both
hypotheses hold and the produced message obeys the bound. -/
theorem batch_size_bound_witness :
    ((format_jobs_for_telegram [jobA, dupJob1]).headI).text.length ≤ 3800
    ∨ ((format_jobs_for_telegram [jobA, dupJob1]).headI).jobs.length ≤ 1 :=
  batch_size_bound [jobA, dupJob1] _ (by decide)

/-! ## Credentials claims -/

/-- C8 counterexample: with delivery-channel credentials absent the
coordinator still attempts the run — it loads, filters, batches, and calls
the send operation for the first message (which fails softly) — refuting
the claim that absent credentials prevent any run from being attempted. -/
theorem missing_creds_counterexample :
    (main_run false [] [jobA] (fun _ => true) "T").attempted ≠ []
    ∧ (main_run false [] [jobA] (fun _ => true) "T").finalLedger = []
    ∧ (main_run false [] [jobA] (fun _ => true) "T").savedLedger = none := by
  decide

/-- C8 amended: no error in the pipeline escalates as a fatal process-level
abort (the whole coordinator is a total function into `RunResult`), and
absent delivery-channel credentials in particular do not stop the run from
being attempted: every send fails softly, so the run proceeds through
load/filter/batch, attempts exactly the first batch when there is anything
to send, aborts there, leaves the ledger exactly as loaded, and never
invokes save. -/
theorem missing_creds_soft_abort (L0 : Ledger) (all_jobs : List Job)
    (transport : Nat → Bool) (now : String) :
    (main_run false L0 all_jobs transport now).finalLedger = L0
    ∧ (main_run false L0 all_jobs transport now).savedLedger = none
    ∧ (main_run false L0 all_jobs transport now).attempted
        = if filter_new_jobs L0 all_jobs = [] then []
          else ((format_jobs_for_telegram (filter_new_jobs L0 all_jobs)).map
            (fun m => m.text)).take 1 := by
  by_cases hne : filter_new_jobs L0 all_jobs = []
  · simp [main_run, hne]
  · have hnn : (format_jobs_for_telegram (filter_new_jobs L0 all_jobs)).map
        (fun m => m.text) ≠ [] := by
      simp [format_jobs_nonempty]
    obtain ⟨m, ms, hm⟩ := List.exists_cons_of_ne_nil hnn
    have hsend : send_batches (send_ok false transport) (m :: ms) 0
        = ([m], false) := by
      simp [send_batches, send_ok]
    refine ⟨?_, ?_, ?_⟩ <;> simp [main_run, hne, hm, hsend]

/-! ## split_nl structural lemmas -/

theorem split_nl_ne_nil (l : List Char) : split_nl l ≠ [] := by
  cases l with
  | nil => simp [split_nl]
  | cons c rest =>
    by_cases h : c = '\n'
    · simp [split_nl, h]
    · simp only [split_nl, if_neg h]
      rcases hrec : split_nl rest with _ | ⟨x, xs⟩ <;> simp

theorem split_nl_append_newline (a b : List Char) :
    split_nl (a ++ '\n' :: b) = split_nl a ++ split_nl b := by
  induction a with
  | nil => simp [split_nl]
  | cons c rest ih =>
    by_cases h : c = '\n'
    · simp [split_nl, h, ih]
    · simp only [List.cons_append, split_nl, if_neg h]
      rcases hrec : split_nl rest with _ | ⟨x, xs⟩
      · exact absurd hrec (split_nl_ne_nil rest)
      · simp only [List.append_eq]
        rw [ih, hrec]
        simp

theorem split_nl_no_newline (a : List Char) (h : '\n' ∉ a) :
    split_nl a = [a] := by
  induction a with
  | nil => rfl
  | cons c rest ih =>
    have hc : c ≠ '\n' := fun hcontra => h (by simp [hcontra])
    have hrest : '\n' ∉ rest := fun hcontra => h (by simp [hcontra])
    simp only [split_nl, if_neg hc, ih hrest]

theorem split_nl_mem_no_newline (s : List Char) :
    ∀ l ∈ split_nl s, '\n' ∉ l := by
  induction s with
  | nil =>
    intro l hl
    simp [split_nl] at hl
    simp [hl]
  | cons c rest ih =>
    intro l hl
    by_cases h : c = '\n'
    · simp only [split_nl, if_pos h] at hl
      rcases List.mem_cons.mp hl with h1 | h1
      · simp [h1]
      · exact ih l h1
    · simp only [split_nl, if_neg h] at hl
      rcases hrec : split_nl rest with _ | ⟨x, xs⟩
      · exact absurd hrec (split_nl_ne_nil rest)
      · rw [hrec] at hl
        rcases List.mem_cons.mp hl with h1 | h1
        · subst h1
          intro hmem
          rcases List.mem_cons.mp hmem with h2 | h2
          · exact h h2.symm
          · exact ih x (by simp [hrec]) h2
        · exact ih l (by simp [hrec, h1])

theorem split_nl_mem_subset (s : List Char) :
    ∀ l ∈ split_nl s, ∀ c ∈ l, c ∈ s := by
  induction s with
  | nil =>
    intro l hl c hc
    simp [split_nl] at hl
    subst hl
    simp at hc
  | cons d rest ih =>
    intro l hl c hc
    by_cases h : d = '\n'
    · simp only [split_nl, if_pos h] at hl
      rcases List.mem_cons.mp hl with h1 | h1
      · subst h1
        simp at hc
      · exact List.mem_cons_of_mem _ (ih l h1 c hc)
    · simp only [split_nl, if_neg h] at hl
      rcases hrec : split_nl rest with _ | ⟨x, xs⟩
      · exact absurd hrec (split_nl_ne_nil rest)
      · rw [hrec] at hl
        rcases List.mem_cons.mp hl with h1 | h1
        · subst h1
          rcases List.mem_cons.mp hc with h2 | h2
          · simp [h2]
          · exact List.mem_cons_of_mem _ (ih x (by simp [hrec]) c h2)
        · exact List.mem_cons_of_mem _ (ih l (by simp [hrec, h1]) c hc)

theorem split_nl_concat_other (l : List Char) (c : Char) (h : c ≠ '\n') :
    ∃ as a, split_nl l = as ++ [a]
      ∧ split_nl (l ++ [c]) = as ++ [a ++ [c]] := by
  induction l with
  | nil => exact ⟨[], [], rfl, by simp [split_nl, if_neg h]⟩
  | cons d rest ih =>
    obtain ⟨as, a, h1, h2⟩ := ih
    by_cases hd : d = '\n'
    · exact ⟨[] :: as, a, by simp [split_nl, hd, h1],
        by simp [split_nl, hd, h2]⟩
    · rcases as with _ | ⟨x, xs⟩
      · simp only [List.nil_append] at h1
        refine ⟨[], d :: a, ?_, ?_⟩
        · simp [split_nl, if_neg hd, h1]
        · simp [split_nl, if_neg hd, h2]
      · refine ⟨(d :: x) :: xs, a, ?_, ?_⟩
        · simp [split_nl, if_neg hd, h1]
        · simp [split_nl, if_neg hd, h2]

/-! ## Strip interaction lemmas -/

theorem py_strip_chars_cons_ws (c : Char) (l : List Char)
    (h : c.isWhitespace = true) :
    py_strip_chars (c :: l) = py_strip_chars l := by
  simp [py_strip_chars, List.dropWhile_cons_of_pos h]

theorem py_strip_chars_concat_ws (l : List Char) (c : Char)
    (h : c.isWhitespace = true) :
    py_strip_chars (l ++ [c]) = py_strip_chars l := by
  by_cases hall : List.dropWhile Char.isWhitespace l = []
  · have h2 : List.dropWhile Char.isWhitespace (l ++ [c]) = [] := by
      rw [List.dropWhile_append]
      simp [hall, List.dropWhile_cons_of_pos h]
    simp [py_strip_chars, hall, h2]
  · have h2 : List.dropWhile Char.isWhitespace (l ++ [c])
        = List.dropWhile Char.isWhitespace l ++ [c] := by
      rw [List.dropWhile_append]
      simp [hall]
    simp only [py_strip_chars, h2]
    exact List.rdropWhile_concat_pos _ _ c h

/-! ## line_tokens lemmas -/

theorem line_tokens_nil : line_tokens [] = [] := rfl

theorem line_tokens_append_newline (a b : List Char) :
    line_tokens (a ++ '\n' :: b) = line_tokens a ++ line_tokens b := by
  simp [line_tokens, split_nl_append_newline]

theorem line_tokens_concat_newline (l : List Char) :
    line_tokens (l ++ ['\n']) = line_tokens l := by
  have h := line_tokens_append_newline l []
  rw [line_tokens_nil] at h
  simpa using h

theorem line_tokens_cons_ws (c : Char) (l : List Char)
    (h : c.isWhitespace = true) :
    line_tokens (c :: l) = line_tokens l := by
  by_cases hc : c = '\n'
  · subst hc
    simp [line_tokens, split_nl, py_strip_chars]
  · rcases hrec : split_nl l with _ | ⟨x, xs⟩
    · exact absurd hrec (split_nl_ne_nil l)
    · have h1 : split_nl (c :: l) = (c :: x) :: xs := by
        simp [split_nl, if_neg hc, hrec]
      simp only [line_tokens, h1, hrec, List.map_cons]
      rw [py_strip_chars_cons_ws c x h]

theorem line_tokens_concat_ws (l : List Char) (c : Char)
    (h : c.isWhitespace = true) :
    line_tokens (l ++ [c]) = line_tokens l := by
  by_cases hc : c = '\n'
  · subst hc
    exact line_tokens_concat_newline l
  · obtain ⟨as, a, h1, h2⟩ := split_nl_concat_other l c hc
    simp only [line_tokens, h1, h2, List.map_append, List.map_cons,
      List.map_nil, List.filter_append]
    rw [py_strip_chars_concat_ws a c h]

theorem line_tokens_dropWhile_ws (s : List Char) :
    line_tokens (List.dropWhile Char.isWhitespace s) = line_tokens s := by
  induction s with
  | nil => rfl
  | cons c rest ih =>
    by_cases h : c.isWhitespace = true
    · rw [List.dropWhile_cons_of_pos h, ih, line_tokens_cons_ws c rest h]
    · rw [List.dropWhile_cons_of_neg h]

theorem line_tokens_rdropWhile_ws (s : List Char) :
    line_tokens (List.rdropWhile Char.isWhitespace s) = line_tokens s := by
  induction s using List.reverseRecOn with
  | nil => rfl
  | append_singleton l c ih =>
    by_cases h : c.isWhitespace = true
    · rw [List.rdropWhile_concat_pos _ _ _ h, ih, line_tokens_concat_ws l c h]
    · rw [List.rdropWhile_concat_neg _ _ _ h]

theorem line_tokens_strip (s : List Char) :
    line_tokens (py_strip_chars s) = line_tokens s := by
  simp only [py_strip_chars]
  rw [line_tokens_rdropWhile_ws, line_tokens_dropWhile_ws]

theorem line_tokens_eq_nil_of_strip_nil (s : List Char)
    (h : py_strip_chars s = []) : line_tokens s = [] := by
  have hall : ∀ c ∈ s, c.isWhitespace = true :=
    (py_strip_chars_eq_nil_iff s).mp h
  simp only [line_tokens]
  rw [List.filter_eq_nil_iff]
  intro x hx
  obtain ⟨line, hline, rfl⟩ := List.mem_map.mp hx
  have hnil : py_strip_chars line = [] :=
    (py_strip_chars_eq_nil_iff line).mpr
      (fun c hc => hall c (split_nl_mem_subset s line hline c hc))
  simp [hnil]

theorem line_tokens_glue (cur line : List Char)
    (hcur : cur = [] ∨ ∃ cur2, cur = cur2 ++ ['\n'])
    (hline : '\n' ∉ line) :
    line_tokens (cur ++ line ++ ['\n'])
      = line_tokens cur
        ++ List.filter (fun x => x ≠ []) [py_strip_chars line] := by
  have hsingle : line_tokens (line ++ ['\n'])
      = List.filter (fun x => x ≠ []) [py_strip_chars line] := by
    rw [line_tokens_concat_newline]
    simp only [line_tokens, split_nl_no_newline line hline, List.map_cons,
      List.map_nil]
  rcases hcur with rfl | ⟨cur2, rfl⟩
  · simpa using hsingle
  · have hsplit : cur2 ++ ['\n'] ++ line ++ ['\n']
        = cur2 ++ '\n' :: (line ++ ['\n']) := by
      simp
    rw [hsplit, line_tokens_append_newline, hsingle,
      line_tokens_concat_newline]

/-! ## split_message loop lemmas -/

theorem split_message_loop_tokens (maxLen : Nat) (lines : List (List Char)) :
    ∀ (cur : List Char) (acc : List (List Char)),
    (∀ l ∈ lines, '\n' ∉ l) →
    (cur = [] ∨ ∃ cur2, cur = cur2 ++ ['\n']) →
    ((split_message_loop maxLen lines cur acc).map line_tokens).flatten
      = (acc.map line_tokens).flatten ++ line_tokens cur
        ++ ((lines.map py_strip_chars).filter (fun x => x ≠ [])) := by
  induction lines with
  | nil =>
    intro cur acc _ _
    simp only [split_message_loop]
    by_cases hst : py_strip_chars cur = []
    · rw [if_neg (by simp [hst])]
      simp [line_tokens_eq_nil_of_strip_nil cur hst]
    · rw [if_pos hst]
      simp [line_tokens_strip]
  | cons line rest ih =>
    intro cur acc hnl hcur
    have hline : '\n' ∉ line := hnl line (by simp)
    have hrest : ∀ l ∈ rest, '\n' ∉ l := fun l hl => hnl l (by simp [hl])
    simp only [split_message_loop]
    by_cases hg : maxLen < cur.length + line.length + 1
    · rw [if_pos hg]
      by_cases hc : cur = []
      · rw [if_pos hc]
        rw [ih (cur ++ line ++ ['\n']) acc hrest
            (Or.inr ⟨cur ++ line, by simp⟩),
          line_tokens_glue cur line (Or.inl hc) hline]
        by_cases hsl : py_strip_chars line = [] <;>
          simp [hsl, List.filter_cons]
      · rw [if_neg hc]
        rw [ih (line ++ ['\n']) (acc ++ [py_strip_chars cur]) hrest
            (Or.inr ⟨line, rfl⟩),
          line_tokens_concat_newline]
        have hsingle : line_tokens line
            = List.filter (fun x => x ≠ []) [py_strip_chars line] := by
          simp only [line_tokens, split_nl_no_newline line hline,
            List.map_cons, List.map_nil]
        rw [hsingle]
        by_cases hsl : py_strip_chars line = [] <;>
          simp [hsl, List.filter_cons, line_tokens_strip]
    · rw [if_neg hg]
      rw [ih (cur ++ line ++ ['\n']) acc hrest
          (Or.inr ⟨cur ++ line, by simp⟩),
        line_tokens_glue cur line hcur hline]
      by_cases hsl : py_strip_chars line = [] <;>
        simp [hsl, List.filter_cons]

theorem sealed_chunk_ok (maxLen : Nat) (allLines : List (List Char))
    (cur : List Char)
    (hcur : cur = [] ∨ cur.length ≤ maxLen
      ∨ ∃ l ∈ allLines, cur = l ++ ['\n']) :
    (py_strip_chars cur).length ≤ maxLen
    ∨ ∃ l ∈ allLines, py_strip_chars cur = py_strip_chars l
        ∧ maxLen < l.length := by
  rcases hcur with rfl | hle | ⟨l, hl, rfl⟩
  · left
    simp [py_strip_chars]
  · left
    exact le_trans (py_strip_chars_length_le cur) hle
  · rw [py_strip_chars_concat_ws l '\n' (by decide)]
    by_cases hlen : (py_strip_chars l).length ≤ maxLen
    · left
      exact hlen
    · right
      refine ⟨l, hl, rfl, ?_⟩
      have := py_strip_chars_length_le l
      omega

theorem split_message_loop_size (maxLen : Nat) (allLines : List (List Char))
    (lines : List (List Char)) :
    ∀ (cur : List Char) (acc : List (List Char)),
    (∀ l ∈ lines, l ∈ allLines) →
    (∀ ch ∈ acc, ch.length ≤ maxLen
      ∨ ∃ l ∈ allLines, ch = py_strip_chars l ∧ maxLen < l.length) →
    (cur = [] ∨ cur.length ≤ maxLen ∨ ∃ l ∈ allLines, cur = l ++ ['\n']) →
    ∀ ch ∈ split_message_loop maxLen lines cur acc,
      ch.length ≤ maxLen
      ∨ ∃ l ∈ allLines, ch = py_strip_chars l ∧ maxLen < l.length := by
  induction lines with
  | nil =>
    intro cur acc _ hacc hcur ch hch
    simp only [split_message_loop] at hch
    by_cases hst : py_strip_chars cur = []
    · rw [if_neg (by simp [hst])] at hch
      exact hacc ch hch
    · rw [if_pos hst] at hch
      rcases List.mem_append.mp hch with h1 | h1
      · exact hacc ch h1
      · simp only [List.mem_singleton] at h1
        subst h1
        rcases sealed_chunk_ok maxLen allLines cur hcur with h2 | ⟨l, hl, heq, hlen⟩
        · exact Or.inl h2
        · exact Or.inr ⟨l, hl, heq, hlen⟩
  | cons line rest ih =>
    intro cur acc hsub hacc hcur ch hch
    have hlmem : line ∈ allLines := hsub line (by simp)
    have hrsub : ∀ l ∈ rest, l ∈ allLines := fun l hl => hsub l (by simp [hl])
    simp only [split_message_loop] at hch
    by_cases hg : maxLen < cur.length + line.length + 1
    · rw [if_pos hg] at hch
      by_cases hc : cur = []
      · rw [if_pos hc] at hch
        refine ih _ _ hrsub hacc ?_ ch hch
        right
        right
        exact ⟨line, hlmem, by rw [hc]; simp⟩
      · rw [if_neg hc] at hch
        refine ih _ _ hrsub ?_ (Or.inr (Or.inr ⟨line, hlmem, rfl⟩)) ch hch
        intro ch2 hch2
        rcases List.mem_append.mp hch2 with h1 | h1
        · exact hacc ch2 h1
        · simp only [List.mem_singleton] at h1
          subst h1
          rcases sealed_chunk_ok maxLen allLines cur hcur with h2 | ⟨l, hl, heq, hlen⟩
          · exact Or.inl h2
          · exact Or.inr ⟨l, hl, heq, hlen⟩
    · rw [if_neg hg] at hch
      refine ih _ _ hrsub hacc ?_ ch hch
      right
      left
      have hlen2 : (cur ++ line ++ ['\n']).length
          = cur.length + line.length + 1 := by
        simp
        omega
      omega

/-! ## split_message claims -/

/-- C10 counterexample: the single-line input `" hello"` contains a
non-whitespace character, yet after `split_message` the line `" hello"`
appears in no returned chunk (the chunk holds the stripped `"hello"`),
refuting the claim that every non-blank input line appears, as a line,
across the returned chunks. -/
theorem split_message_exact_line_counterexample :
    (∃ c ∈ (" hello" : String).data, c.isWhitespace = false)
    ∧ " hello" ∈ py_lines " hello"
    ∧ split_message " hello" 10 = ["hello"]
    ∧ " hello" ∉ ((split_message " hello" 10).map py_lines).flatten := by
  decide

/-- C10 amended: for every input string and positive max length,
`split_message` preserves line content up to whitespace stripping at chunk
boundaries — the concatenated sequence of stripped non-blank lines of the
returned chunks equals the sequence of stripped non-blank lines of the input
(so no posting text other than boundary whitespace is lost, none duplicated,
order preserved) — and every returned chunk's length is at most the max
length unless the chunk is the stripped form of a single input line whose
own length exceeds the max length. -/
theorem split_message_content_and_size (message : String) (maxLen : Nat)
    (_hpos : 0 < maxLen) :
    ((split_message message maxLen).map
        (fun ch => line_tokens ch.data)).flatten
      = line_tokens message.data
    ∧ ∀ ch ∈ split_message message maxLen,
        ch.length ≤ maxLen
        ∨ ∃ l ∈ py_lines message, ch = py_strip l ∧ maxLen < l.length := by
  constructor
  · have hmain := split_message_loop_tokens maxLen (split_nl message.data)
      [] [] (split_nl_mem_no_newline message.data) (Or.inl rfl)
    have h2 : ((split_message_loop maxLen (split_nl message.data) [] []).map
        line_tokens).flatten = line_tokens message.data := by
      rw [hmain]
      simp only [List.map_nil, List.flatten_nil, List.nil_append,
        line_tokens_nil]
      rfl
    rw [split_message, List.map_map]
    exact h2
  · intro ch hch
    rw [split_message] at hch
    obtain ⟨l, hl, rfl⟩ := List.mem_map.mp hch
    have hres := split_message_loop_size maxLen (split_nl message.data)
      (split_nl message.data) [] [] (fun x hx => hx) (by simp)
      (Or.inl rfl) l hl
    rcases hres with h1 | ⟨l2, hl2, heq, hlen⟩
    · left
      simpa using h1
    · right
      refine ⟨String.mk l2, List.mem_map_of_mem _ hl2, ?_, ?_⟩
      · rw [heq]
        rfl
      · simpa using hlen

/-- C10 amended, witness: a concrete input and max length satisfy the
positivity hypothesis and both conclusions. -/
theorem split_message_content_and_size_witness :
    ((split_message "a\nb" 5).map
        (fun ch => line_tokens ch.data)).flatten
      = line_tokens ("a\nb" : String).data
    ∧ ∀ ch ∈ split_message "a\nb" 5,
        ch.length ≤ 5
        ∨ ∃ l ∈ py_lines "a\nb", ch = py_strip l ∧ 5 < l.length :=
  split_message_content_and_size "a\nb" 5 (by decide)

end JobScraper
